import Mathlib

/-
Shallow embedding of the `arena` Go package (github.com/johnsiilver/arena):
an arena memory manager for blocks of bytes, a pool of arenas, and the
lease handles (Writer / Reader) issued against arena blocks, together with
the generic two-tier object pool (internal/mempool) used for recycling.

Bytes are modelled as `Nat`, byte slices as `List Nat`.  Go's in-place
mutation becomes explicit state passing: every operation returns the
updated value(s).  A Go `*sync.WaitGroup` pointer held by a handle is
modelled by a `Bool` field `wg` (`true` = non-nil pointer to the owning
arena's completion counter); `sync.Once` state becomes the Bool `released`.
A release operation returns, besides the updated handle, how many `Done`
(decrement) signals it emitted (0 or 1), so that completion-counter
bookkeeping is explicit.  A Go panic (nil-pointer dereference) is modelled
by `Option.none`.
-/

namespace ArenaModel

/-- Models Go `copy(dst, src)` for byte slices: overwrites the first
`min (dst.length) (src.length)` entries of `dst` with those of `src`,
leaving the rest of `dst` unchanged; the result has `dst`'s length. -/
def goCopy (dst src : List Nat) : List Nat :=
  src.take dst.length ++ dst.drop src.length

/-- Models `copy(dst[off:], src)`: the part of `dst` before `off` is kept,
the suffix from `off` receives the copy. -/
def copyAt (dst : List Nat) (off : Nat) (src : List Nat) : List Nat :=
  dst.take off ++ goCopy (dst.drop off) src

/-- Writer writes to a block of bytes that came from an arena (Go `Writer`).
`pos` models the Go field `at` (a Lean keyword); `wg : Bool` models whether
the `wg *sync.WaitGroup` pointer is non-nil; `released` models the
`sync.Once` having fired.  `off` is ghost instrumentation recording the
start offset of the slice view `a.block[a.next : a.next+size]` inside the
arena's backing block (implicit in Go's slice aliasing); it is `0` for
standalone (oversized) blocks. -/
structure Writer where
  block : List Nat
  pos : Nat
  wg : Bool
  released : Bool
  off : Nat
deriving DecidableEq, Repr

/-- Reader reads from a block of bytes that came from an arena (Go `Reader`).
`pos` models the Go field `at`. -/
structure Reader where
  block : List Nat
  pos : Nat
  wg : Bool
  released : Bool
deriving DecidableEq, Repr

/-- Models the Go `arena` struct: `block` is the backing block, `next` the
bump cursor, `reasonable` the per-request limit, and `wgCount` the value of
the `sync.WaitGroup` completion counter. -/
structure Arena where
  block : List Nat
  reasonable : Nat
  next : Nat
  wgCount : Int
deriving DecidableEq, Repr

/-- Result of `arena.GetWriter`: a writer, or one of the two errors the Go
code can return (`size must be greater than 0`, `arenaFullErr`). -/
inductive GetRes where
  | ok (w : Writer)
  | invalidSize
  | arenaFull
deriving DecidableEq, Repr

/-- The writer built by the oversized branch of `arena.GetWriter`: a fresh
standalone zeroed block of `size` bytes and no waitgroup pointer
(`// There is no passing of wg, because this is not allocated on the arena.`). -/
def oversizedWriter (size : Int) : Writer :=
  { block := List.replicate size.toNat 0, pos := 0, wg := false,
    released := false, off := 0 }

/-- Go `arena.GetWriter(size int) (Writer, error)`:
if `size < 1` error; if `size > a.reasonable` return a standalone writer;
if `a.next+size > len(a.block)` return `arenaFullErr`; otherwise
`a.wg.Add(1)`, hand out the slice `a.block[a.next : a.next+size]` and
advance `a.next += size`. -/
def Arena.GetWriter (a : Arena) (size : Int) : GetRes × Arena :=
  if size < 1 then (GetRes.invalidSize, a)
  else if (a.reasonable : Int) < size then (GetRes.ok (oversizedWriter size), a)
  else if a.block.length < a.next + size.toNat then (GetRes.arenaFull, a)
  else
    (GetRes.ok
       { block := (a.block.drop a.next).take size.toNat, pos := 0,
         wg := true, released := false, off := a.next },
     { a with next := a.next + size.toNat, wgCount := a.wgCount + 1 })

/-- Go `arena.Wait()`: blocks until the completion counter reaches zero;
it mutates no arena field, so its state effect is the identity. -/
def Arena.Wait (a : Arena) : Arena := a

/-- Go `arena.Reset(ctx)`: `a.next = 0`.  The memory is not zeroed. -/
def Arena.Reset (a : Arena) : Arena := { a with next := 0 }

/-- Go `newArena(size, reasonable uint)`: fails when
`reasonable*10 > size`, otherwise allocates a zeroed backing block. -/
def newArena (size reasonable : Nat) : Option Arena :=
  if size < reasonable * 10 then none
  else some { block := List.replicate size 0, reasonable := reasonable,
              next := 0, wgCount := 0 }

/-- Go `Writer.Write(b []byte) (int, error)`.  The returned Bool is `true`
when the Go code returns `io.ErrShortWrite`.  Branches mirror the source:
already-full handle; `len(b) > len(w.block)-w.at` (copy the fitting part,
do not move `at`); normal copy advancing `at` by `n := copy(...)`. -/
def Writer.Write (w : Writer) (b : List Nat) : Writer × Nat × Bool :=
  if w.block.length ≤ w.pos then (w, 0, true)
  else if w.block.length - w.pos < b.length then
    ({ w with block := copyAt w.block w.pos (b.take (w.block.length - w.pos)) },
     w.block.length - w.pos, true)
  else
    let n := min (w.block.length - w.pos) b.length
    ({ w with block := copyAt w.block w.pos b, pos := w.pos + n }, n, false)

/-- Go `Writer.Len()`: bytes of the unwritten portion. -/
def Writer.Len (w : Writer) : Nat := w.block.length - w.pos

/-- Go `Writer.Cap()`: `len(w.block)`. -/
def Writer.Cap (w : Writer) : Nat := w.block.length

/-- Go `Writer.Reset()`: `w.at = 0`. -/
def Writer.Reset (w : Writer) : Writer := { w with pos := 0 }

/-- Go `Writer.Release()`: returns immediately when `w.wg == nil`;
otherwise fires `w.wg.Done()` through `w.once`.  The Nat result counts the
`Done` (counter decrement) signals emitted by this call. -/
def Writer.Release (w : Writer) : Writer × Nat :=
  if w.wg = false then (w, 0)
  else if w.released then (w, 0)
  else ({ w with released := true }, 1)

/-- Calling `Writer.Release` `n` times in a row, accumulating the total
number of `Done` signals emitted. -/
def Writer.releaseN (w : Writer) : Nat → Writer × Nat
  | 0 => (w, 0)
  | n + 1 =>
    let p := Writer.Release w
    let q := Writer.releaseN p.1 n
    (q.1, p.2 + q.2)

/-- Go `Writer.Reader()` (spec name `to_reader`): `w.wg.Add(1)` — a nil
`w.wg` makes this a nil-pointer dereference panic, modelled by `none` —
then `w.Release()`, then a Reader over the whole block from position 0.
The `Int` result is the net change applied to the completion counter:
`+1` from `Add(1)` minus the `Done` signals of the embedded release. -/
def Writer.toReader (w : Writer) : Option (Reader × Writer × Int) :=
  if w.wg = false then none
  else
    let p := Writer.Release w
    some ({ block := w.block, pos := 0, wg := w.wg, released := false },
          p.1, 1 - (p.2 : Int))

/-- Go `Reader.Read(b []byte) (int, error)`.  `bufLen` is `len(b)`; the
returned list is what was copied into `b`; the Bool is `true` when the Go
code returns `io.EOF`. -/
def Reader.Read (r : Reader) (bufLen : Nat) : Reader × List Nat × Bool :=
  if r.block.length ≤ r.pos then (r, [], true)
  else
    let chunk := (r.block.drop r.pos).take bufLen
    ({ r with pos := r.pos + chunk.length }, chunk,
     r.pos + chunk.length == r.block.length)

/-- Go `Reader.Len()`. -/
def Reader.Len (r : Reader) : Nat := r.block.length - r.pos

/-- Go `Reader.Peek(n)`: the next `n` unread bytes, or an error when the
block is not big enough. -/
def Reader.Peek (r : Reader) (n : Nat) : Option (List Nat) :=
  if r.block.length < r.pos + n then none
  else some ((r.block.drop r.pos).take n)

/-- Go `Reader.Bytes()`: the unread portion. -/
def Reader.Bytes (r : Reader) : List Nat := r.block.drop r.pos

/-- Go `Reader.Release()`: same shape as `Writer.Release`. -/
def Reader.Release (r : Reader) : Reader × Nat :=
  if r.wg = false then (r, 0)
  else if r.released then (r, 0)
  else ({ r with released := true }, 1)

/-- Calling `Reader.Release` `n` times in a row. -/
def Reader.releaseN (r : Reader) : Nat → Reader × Nat
  | 0 => (r, 0)
  | n + 1 =>
    let p := Reader.Release r
    let q := Reader.releaseN p.1 n
    (q.1, p.2 + q.2)

/-- Drive `Reader.Read` with a caller buffer of length `bufLen` until the
end-of-data signal, concatenating everything read.  `fuel` bounds the
number of iterations (the Go loop is unbounded). -/
def readLoop : Nat → Reader → Nat → List Nat
  | 0, _, _ => []
  | fuel + 1, r, bufLen =>
    let p := Reader.Read r bufLen
    if p.2.2 then p.2.1 else p.2.1 ++ readLoop fuel p.1 bufLen

/-- A fresh Write-handle of capacity `N` over a zeroed block, carrying a
completion signal, as issued by a fresh arena for an arena-backed lease. -/
def freshWriter (N : Nat) : Writer :=
  { block := List.replicate N 0, pos := 0, wg := true, released := false,
    off := 0 }

/-- The round-trip pipeline of the spec: write `s` into a fresh Write-handle
of capacity `N`, convert with `to_reader`, read until end-of-data using a
caller buffer of length `bufLen`.  `none` models a panic in `to_reader`. -/
def roundTrip (N : Nat) (s : List Nat) (bufLen : Nat) : Option (List Nat) :=
  match Writer.toReader ((Writer.Write (freshWriter N) s).1) with
  | some p => some (readLoop (N + 1) p.1 bufLen)
  | none => none

/-- Run a sequence of `GetWriter` requests against one arena generation,
recording for each successful lease the byte range `(start, length)` it
occupies in the backing block; `none` when any request fails. -/
def runGets (a : Arena) : List Int → Option (List (Nat × Nat) × Arena)
  | [] => some ([], a)
  | s :: rest =>
    match Arena.GetWriter a s with
    | (GetRes.ok w, a') =>
      match runGets a' rest with
      | some p => some ((w.off, w.block.length) :: p.1, p.2)
      | none => none
    | (_, _) => none

/-- The ranges `rs` tile the block consecutively starting at offset `n`:
each range starts where the previous one ended and is nonempty. -/
def ConsecFrom : Nat → List (Nat × Nat) → Prop
  | _, [] => True
  | n, r :: rest => r.1 = n ∧ 1 ≤ r.2 ∧ ConsecFrom (n + r.2) rest

/-- Models the Go `Pool` struct: the two construction parameters, the
current arena, and the recycler (internal/mempool): `buffer` holds the
contents of the bounded channel of capacity `bufCap`.  (The Go struct
also declares a field `arenas []*arena` that no code uses; it is kept
here, always empty.) -/
structure Pool where
  size : Nat
  reasonable : Nat
  current : Arena
  buffer : List Arena
  bufCap : Nat
  arenas : List Arena
deriving DecidableEq, Repr

/-- Go `New(ctx, name, size, reasonable, buffer)`: fails when
`reasonable*10 > size`, else eagerly constructs the first current arena. -/
def Pool.New (size reasonable bufCap : Nat) : Option Pool :=
  if size < reasonable * 10 then none
  else
    match newArena size reasonable with
    | some a =>
      some { size := size, reasonable := reasonable, current := a,
             buffer := [], bufCap := bufCap, arenas := [] }
    | none => none

/-- Go `mempool.Pool.Get`: a non-blocking receive from the buffer channel,
falling through to `sync.Pool.Get` which runs the factory
`func() *arena { newArena(size, reasonable) or panic }` when the free list
is empty (the free list gives no retention guarantee, so it is modelled by
the factory).  `none` models the factory's panic. -/
def poolGet (p : Pool) : Option (Arena × List Arena) :=
  match p.buffer with
  | a :: rest => some (a, rest)
  | [] =>
    match newArena p.size p.reasonable with
    | some a => some (a, [])
    | none => none

/-- Go `Pool.getWriter` (the body run under the mutex by `Pool.GetWriter`):
delegate to the current arena; if and only if the error is `arenaFullErr`,
hand the depleted arena to the background reclamation goroutine
(`handleDepleted`, which does not touch the pool's request path), obtain a
replacement from the recycler, make it current, and retry once. -/
def Pool.getWriter (p : Pool) (size : Int) : Option (GetRes × Pool) :=
  let q := Arena.GetWriter p.current size
  if q.1 = GetRes.arenaFull then
    match poolGet p with
    | none => none
    | some (repl, buf') =>
      let q2 := Arena.GetWriter repl size
      some (q2.1, { p with current := q2.2, buffer := buf' })
  else some (q.1, { p with current := q.2 })

/-- Well-formedness of an arena managed by pool `p`: its backing block has
the pool's configured size and it carries the pool's reasonable limit. -/
def ArenaWF (p : Pool) (a : Arena) : Prop :=
  a.block.length = p.size ∧ a.reasonable = p.reasonable

/-- Pool invariant: the construction check `reasonable*10 ≤ size` passed,
the current arena is well formed, and every recycled arena in the buffer
is well formed and has been reset (cursor 0) — which is how arenas enter
the buffer (`Put` resets them, see `mempoolPut`). -/
def PoolWF (p : Pool) : Prop :=
  p.reasonable * 10 ≤ p.size ∧ ArenaWF p p.current ∧
    ∀ a ∈ p.buffer, ArenaWF p a ∧ a.next = 0

/-- Go `mempool.Pool.Put(ctx, v)` specialized over the stored type: first
the hook `if r, ok := any(v).(Resetter); ok { r.Reset(ctx) }` applies
`resetter` when the type provides one; then a non-blocking send to the
buffer channel (capacity `cap`); on a full channel the value goes to the
`sync.Pool` free list, modelled by the `Option` overflow result. -/
def mempoolPut {α : Type} (resetter : Option (α → α)) (buf : List α)
    (cap : Nat) (v : α) : List α × Option α :=
  let v' := match resetter with
            | some f => f v
            | none => v
  if buf.length < cap then (buf ++ [v'], none) else (buf, some v')

/-- The outcome of the `any(v).(Resetter)` type assertion for `*arena`:
`*arena` has the method `Reset(ctx context.Context)`, so the assertion
succeeds and yields the arena's own reset operation. -/
def arenaResetter : Option (Arena → Arena) := some Arena.Reset

/-- The body of the goroutine spawned by Go `Pool.handleDepleted`:
`a.Wait()` (drain, state-identity once it unblocks) followed directly by
`p.pool.Put(ctx, a)` — there is no other statement between them. -/
def handleDepletedBody (buf : List Arena) (cap : Nat) (a : Arena) :
    List Arena × Option Arena :=
  mempoolPut arenaResetter buf cap (Arena.Wait a)

/-- Helper: `arena.GetWriter` on the oversized path. -/
theorem getWriter_oversized (a : Arena) (size : Int)
    (h : (a.reasonable : Int) < size) :
    Arena.GetWriter a size = (GetRes.ok (oversizedWriter size), a) := by
  have h1 : ¬ size < 1 := by omega
  simp [Arena.GetWriter, h1, h]

/-- Helper: `arena.GetWriter` on the arena-full path. -/
theorem getWriter_full (a : Arena) (size : Int) (h1 : 0 < size)
    (h2 : size ≤ (a.reasonable : Int))
    (h3 : a.block.length < a.next + size.toNat) :
    Arena.GetWriter a size = (GetRes.arenaFull, a) := by
  unfold Arena.GetWriter
  rw [if_neg (by omega), if_neg (by omega), if_pos h3]

/-- Helper: `arena.GetWriter` on the successful arena-backed path. -/
theorem getWriter_ok (a : Arena) (size : Int) (h1 : 0 < size)
    (h2 : size ≤ (a.reasonable : Int))
    (h3 : a.next + size.toNat ≤ a.block.length) :
    Arena.GetWriter a size =
      (GetRes.ok
         { block := (a.block.drop a.next).take size.toNat, pos := 0,
           wg := true, released := false, off := a.next },
       { a with next := a.next + size.toNat, wgCount := a.wgCount + 1 }) := by
  unfold Arena.GetWriter
  rw [if_neg (by omega), if_neg (by omega), if_neg (by omega)]

/-- Helper: when the source slice is at least as long as the destination,
`goCopy` overwrites the destination completely. -/
theorem goCopy_covers (dst src : List Nat) (h : dst.length ≤ src.length) :
    goCopy dst src = src.take dst.length := by
  unfold goCopy
  rw [List.drop_eq_nil_of_le h, List.append_nil]

/-- Helper: `Writer.Write` when the payload fits in the remaining
capacity: the whole payload is committed and the cursor advances by its
length. -/
theorem write_fits (w : Writer) (b : List Nat)
    (h1 : w.pos < w.block.length) (h2 : b.length ≤ w.block.length - w.pos) :
    Writer.Write w b =
      ({ w with block := copyAt w.block w.pos b, pos := w.pos + b.length },
       b.length, false) := by
  have e1 : ¬ w.block.length ≤ w.pos := by omega
  have e2 : ¬ w.block.length - w.pos < b.length := by omega
  have e3 : min (w.block.length - w.pos) b.length = b.length := by omega
  simp [Writer.Write, e1, e2, e3]

end ArenaModel

namespace ArenaModel

/-- Claim C8: `arena.Reset` sets the cursor to 0 and changes nothing
else — the backing block keeps every byte (no zeroing, stale bytes from
the previous generation remain), and the reasonable limit and the
completion counter are untouched. -/
theorem reset_sets_cursor_only (a : Arena) :
    Arena.Reset a = { a with next := 0 }
    ∧ (Arena.Reset a).next = 0
    ∧ (Arena.Reset a).block = a.block
    ∧ (Arena.Reset a).reasonable = a.reasonable
    ∧ (Arena.Reset a).wgCount = a.wgCount :=
  ⟨rfl, rfl, rfl, rfl, rfl⟩

/-- Claim C6: for every size strictly above the reasonable limit,
`GetWriter` always succeeds regardless of the arena's cursor, returning a
writer over a freshly allocated standalone block of exactly `size` bytes
with no completion-signal pointer; the arena (cursor and counter) is
unchanged, and releasing that handle is a no-op emitting no decrement. -/
theorem oversize_always_succeeds (a : Arena) (size : Int)
    (h : (a.reasonable : Int) < size) :
    Arena.GetWriter a size = (GetRes.ok (oversizedWriter size), a)
    ∧ (((oversizedWriter size).block.length : Int)) = size
    ∧ (oversizedWriter size).wg = false
    ∧ Writer.Release (oversizedWriter size) = (oversizedWriter size, 0) := by
  refine ⟨getWriter_oversized a size h, ?_, rfl, rfl⟩
  simp [oversizedWriter]
  omega

/-- Witness for C6 at a concrete arena and size. -/
theorem oversize_always_succeeds_w :
    Arena.GetWriter ⟨List.replicate 10 0, 1, 4, 2⟩ 5
        = (GetRes.ok (oversizedWriter 5), ⟨List.replicate 10 0, 1, 4, 2⟩)
    ∧ (((oversizedWriter 5).block.length : Int)) = 5
    ∧ (oversizedWriter 5).wg = false
    ∧ Writer.Release (oversizedWriter 5) = (oversizedWriter 5, 0) :=
  oversize_always_succeeds ⟨List.replicate 10 0, 1, 4, 2⟩ 5 (by decide)

/-- Claim C10: a Write-handle from the oversized path carries a nil
completion-signal pointer, and converting it with `Writer.Reader`
(`to_reader`) dereferences that nil pointer in `w.wg.Add(1)` — a panic,
modelled by `none` — even though `Release` on the same handle is a
harmless no-op. -/
theorem oversized_to_reader_panics (a : Arena) (size : Int)
    (h : (a.reasonable : Int) < size) :
    (Arena.GetWriter a size).1 = GetRes.ok (oversizedWriter size)
    ∧ (oversizedWriter size).wg = false
    ∧ Writer.toReader (oversizedWriter size) = none
    ∧ Writer.Release (oversizedWriter size) = (oversizedWriter size, 0) := by
  refine ⟨?_, rfl, rfl, rfl⟩
  rw [getWriter_oversized a size h]

/-- Witness for C10 at a concrete arena and size. -/
theorem oversized_to_reader_panics_w :
    (Arena.GetWriter ⟨List.replicate 10 0, 1, 0, 0⟩ 7).1
        = GetRes.ok (oversizedWriter 7)
    ∧ (oversizedWriter 7).wg = false
    ∧ Writer.toReader (oversizedWriter 7) = none
    ∧ Writer.Release (oversizedWriter 7) = (oversizedWriter 7, 0) :=
  oversized_to_reader_panics ⟨List.replicate 10 0, 1, 0, 0⟩ 7 (by decide)

/-- Claim C7: for in-range sizes (0 < size ≤ reasonable), `GetWriter`
fails with arena-full exactly when `cursor + size` exceeds the backing
block length, and on that failure the arena is returned unchanged (cursor
and completion counter untouched). -/
theorem arena_full_iff_no_mutation (a : Arena) (size : Int)
    (h1 : 0 < size) (h2 : size ≤ (a.reasonable : Int)) :
    ((Arena.GetWriter a size).1 = GetRes.arenaFull ↔
       a.block.length < a.next + size.toNat)
    ∧ ((Arena.GetWriter a size).1 = GetRes.arenaFull →
       (Arena.GetWriter a size).2 = a) := by
  by_cases h5 : a.block.length < a.next + size.toNat
  · rw [getWriter_full a size h1 h2 h5]
    simp [h5]
  · rw [getWriter_ok a size h1 h2 (by omega)]
    simp [h5]

/-- Witness for C7 at a concrete arena and size. -/
theorem arena_full_iff_no_mutation_w :
    ((Arena.GetWriter ⟨List.replicate 5 0, 3, 4, 0⟩ 2).1 = GetRes.arenaFull ↔
       (List.replicate 5 (0 : Nat)).length < 4 + (2 : Int).toNat)
    ∧ ((Arena.GetWriter ⟨List.replicate 5 0, 3, 4, 0⟩ 2).1 = GetRes.arenaFull →
       (Arena.GetWriter ⟨List.replicate 5 0, 3, 4, 0⟩ 2).2
         = ⟨List.replicate 5 0, 3, 4, 0⟩) :=
  arena_full_iff_no_mutation ⟨List.replicate 5 0, 3, 4, 0⟩ 2 (by decide) (by decide)

/-- Counterexample to claim C9 as stated: the background reclamation body
hands the arena to `Put` with its cursor still non-zero (no explicit
`Reset` call happens between `Wait` and `Put`), and it is `Put`'s generic
Resetter hook — wired for arenas, `arenaResetter.isSome` — that zeroes the
cursor before the arena is stored for reuse. -/
theorem put_hook_resets_ce :
    arenaResetter.isSome = true
    ∧ (Arena.Wait ⟨[9, 9, 9], 0, 2, 0⟩).next = 2
    ∧ handleDepletedBody [] 1 ⟨[9, 9, 9], 0, 2, 0⟩ = ([⟨[9, 9, 9], 0, 0, 0⟩], none) := by
  decide

/-- Claim C9 amended: an exhausted arena is reset during background
reclamation, but not by an explicit `Reset` call in the goroutine: after
`Wait` (drain) completes the task passes the still-unreset arena straight
to the Object Pool's `Put`, and the generic reset hook — which is wired
for arenas because `*arena` implements `Resetter` — performs the reset
before the arena is buffered (or overflows to the free list). -/
theorem reclaim_resets_via_put_hook (buf : List Arena) (cap : Nat) (a : Arena) :
    handleDepletedBody buf cap a = mempoolPut arenaResetter buf cap a
    ∧ arenaResetter = some Arena.Reset
    ∧ handleDepletedBody buf cap a =
        (if buf.length < cap then (buf ++ [Arena.Reset a], none)
         else (buf, some (Arena.Reset a))) :=
  ⟨rfl, rfl, rfl⟩

/-- Counterexample to claim C1 as stated: a short write on a capacity-2
handle commits the 2-byte fitting half, reports `(2, short-write)`, but
leaves the cursor at 0 — not at full capacity — so a further write still
commits a byte (with no error), overwriting the committed half. -/
theorem write_short_cursor_ce :
    Writer.Write ⟨[0, 0], 0, true, false, 0⟩ [1, 2, 3]
        = (⟨[1, 2], 0, true, false, 0⟩, 2, true)
    ∧ (Writer.Write ⟨[0, 0], 0, true, false, 0⟩ [1, 2, 3]).1.pos ≠ 2
    ∧ (Writer.Write (Writer.Write ⟨[0, 0], 0, true, false, 0⟩ [1, 2, 3]).1 [9]).2
        = (1, false) := by
  decide

/-- Claim C1 amended: for a payload longer than the positive remaining
capacity, `Write` copies exactly the fitting part of the payload into the
block (the committed part stays — short writes are not rolled back) and
returns the truncated count with the short-write status, but it leaves the
cursor unchanged rather than advancing it to full capacity, so a further
write on the same handle can still commit bytes. -/
theorem write_short_commits_no_advance (w : Writer) (b : List Nat)
    (h1 : w.pos < w.block.length) (h2 : w.block.length - w.pos < b.length) :
    Writer.Write w b =
      ({ w with block := w.block.take w.pos ++ b.take (w.block.length - w.pos) },
       w.block.length - w.pos, true)
    ∧ (Writer.Write w b).1.pos = w.pos
    ∧ (Writer.Write (Writer.Write w b).1 (b.take (w.block.length - w.pos))).2
        = (w.block.length - w.pos, false)
    ∧ 1 ≤ w.block.length - w.pos := by
  have e1 : ¬ w.block.length ≤ w.pos := by omega
  have hdl : (w.block.drop w.pos).length = w.block.length - w.pos :=
    List.length_drop ..
  have hsl : (b.take (w.block.length - w.pos)).length = w.block.length - w.pos := by
    rw [List.length_take]; omega
  have ecopy : copyAt w.block w.pos (b.take (w.block.length - w.pos))
      = w.block.take w.pos ++ b.take (w.block.length - w.pos) := by
    unfold copyAt
    rw [goCopy_covers _ _ (by rw [hdl, hsl]), hdl, List.take_take,
      Nat.min_self]
  have hmain : Writer.Write w b =
      ({ w with block := w.block.take w.pos ++ b.take (w.block.length - w.pos) },
       w.block.length - w.pos, true) := by
    unfold Writer.Write
    rw [if_neg e1, if_pos h2, ecopy]
  have hwlen : (w.block.take w.pos ++ b.take (w.block.length - w.pos)).length
      = w.block.length := by
    rw [List.length_append, List.length_take, hsl]; omega
  refine ⟨hmain, by rw [hmain], ?_, by omega⟩
  rw [hmain]
  rw [write_fits _ _ (by simpa [hwlen] using h1) (by simp [hwlen, hsl])]
  simp [hsl]

/-- Witness for the amended C1 at a concrete handle and payload. -/
theorem write_short_commits_no_advance_w :
    Writer.Write ⟨[0, 0], 0, true, false, 0⟩ [1, 2, 3]
        = (⟨[1, 2], 0, true, false, 0⟩, 2, true)
    ∧ (Writer.Write ⟨[0, 0], 0, true, false, 0⟩ [1, 2, 3]).1.pos = 0
    ∧ (Writer.Write (Writer.Write ⟨[0, 0], 0, true, false, 0⟩ [1, 2, 3]).1
        ([1, 2, 3].take 2)).2 = (2, false)
    ∧ 1 ≤ 2 :=
  write_short_commits_no_advance ⟨[0, 0], 0, true, false, 0⟩ [1, 2, 3]
    (by decide) (by decide)

/-- Helper: once a handle has no completion signal left to fire (nil
waitgroup pointer, or its once already fired), any number of further
releases changes nothing and emits no decrement. -/
theorem writer_release_stable (w : Writer)
    (h : w.wg = false ∨ w.released = true) :
    ∀ n, Writer.releaseN w n = (w, 0) := by
  have hr : Writer.Release w = (w, 0) := by
    unfold Writer.Release
    rcases h with h | h
    · rw [if_pos h]
    · by_cases hw : w.wg = false
      · rw [if_pos hw]
      · rw [if_neg hw, if_pos h]
  intro n
  induction n with
  | zero => rfl
  | succ n ih => simp [Writer.releaseN, hr, ih]

/-- Helper: a fresh handle with a live completion signal, released `n ≥ 1`
times, ends released with exactly one decrement emitted in total. -/
theorem writer_releaseN_fresh (w : Writer) (h1 : w.wg = true)
    (h2 : w.released = false) :
    ∀ n, 1 ≤ n → Writer.releaseN w n = ({ w with released := true }, 1) := by
  have hr : Writer.Release w = ({ w with released := true }, 1) := by
    unfold Writer.Release
    rw [if_neg (by simp [h1]), if_neg (by simp [h2])]
  intro n hn
  cases n with
  | zero => omega
  | succ m =>
    have hs := writer_release_stable { w with released := true } (Or.inr rfl)
    simp [Writer.releaseN, hr, hs m]

/-- Helper: `writer_release_stable` for Read-handles. -/
theorem reader_release_stable (r : Reader)
    (h : r.wg = false ∨ r.released = true) :
    ∀ n, Reader.releaseN r n = (r, 0) := by
  have hr : Reader.Release r = (r, 0) := by
    unfold Reader.Release
    rcases h with h | h
    · rw [if_pos h]
    · by_cases hw : r.wg = false
      · rw [if_pos hw]
      · rw [if_neg hw, if_pos h]
  intro n
  induction n with
  | zero => rfl
  | succ n ih => simp [Reader.releaseN, hr, ih]

/-- Helper: `writer_releaseN_fresh` for Read-handles. -/
theorem reader_releaseN_fresh (r : Reader) (h1 : r.wg = true)
    (h2 : r.released = false) :
    ∀ n, 1 ≤ n → Reader.releaseN r n = ({ r with released := true }, 1) := by
  have hr : Reader.Release r = ({ r with released := true }, 1) := by
    unfold Reader.Release
    rw [if_neg (by simp [h1]), if_neg (by simp [h2])]
  intro n hn
  cases n with
  | zero => omega
  | succ m =>
    have hs := reader_release_stable { r with released := true } (Or.inr rfl)
    simp [Reader.releaseN, hr, hs m]

/-- Claim C5: releasing a handle (Write- or Read-) `n ≥ 2` times has no
observable effect beyond the first call — the outcome equals that of a
single release, with exactly one completion-counter decrement emitted in
total and no error — and each granted arena-backed lease increments the
completion counter exactly once and starts unreleased, so after every
handle of a generation has been released the counter is back to its
starting value (zero for a fresh generation) and never goes below it. -/
theorem release_idempotent_once (w : Writer) (r : Reader) (n : Nat)
    (hn : 2 ≤ n) (hw1 : w.wg = true) (hw2 : w.released = false)
    (hr1 : r.wg = true) (hr2 : r.released = false)
    (a a' : Arena) (size : Int) (w' : Writer)
    (hga : Arena.GetWriter a size = (GetRes.ok w', a')) (hwg : w'.wg = true) :
    Writer.releaseN w n = ({ w with released := true }, 1)
    ∧ Writer.releaseN w 1 = ({ w with released := true }, 1)
    ∧ Reader.releaseN r n = ({ r with released := true }, 1)
    ∧ Reader.releaseN r 1 = ({ r with released := true }, 1)
    ∧ a'.wgCount = a.wgCount + 1
    ∧ w'.released = false := by
  refine ⟨writer_releaseN_fresh w hw1 hw2 n (by omega),
    writer_releaseN_fresh w hw1 hw2 1 (by omega),
    reader_releaseN_fresh r hr1 hr2 n (by omega),
    reader_releaseN_fresh r hr1 hr2 1 (by omega), ?_⟩
  by_cases hs1 : size < 1
  · unfold Arena.GetWriter at hga
    rw [if_pos hs1] at hga
    simp at hga
  · by_cases hs2 : (a.reasonable : Int) < size
    · rw [getWriter_oversized a size hs2] at hga
      simp at hga
      rw [← hga.1] at hwg
      simp [oversizedWriter] at hwg
    · by_cases hs3 : a.block.length < a.next + size.toNat
      · rw [getWriter_full a size (by omega) (by omega) hs3] at hga
        simp at hga
      · rw [getWriter_ok a size (by omega) (by omega) (by omega)] at hga
        simp at hga
        obtain ⟨hw', ha'⟩ := hga
        subst hw'
        subst ha'
        exact ⟨rfl, rfl⟩

/-- Witness for C5 at concrete handles, a concrete arena and lease. -/
theorem release_idempotent_once_w :
    Writer.releaseN ⟨[5], 0, true, false, 0⟩ 3
        = (⟨[5], 0, true, true, 0⟩, 1)
    ∧ Writer.releaseN ⟨[5], 0, true, false, 0⟩ 1
        = (⟨[5], 0, true, true, 0⟩, 1)
    ∧ Reader.releaseN ⟨[5], 0, true, false⟩ 3
        = (⟨[5], 0, true, true⟩, 1)
    ∧ Reader.releaseN ⟨[5], 0, true, false⟩ 1
        = (⟨[5], 0, true, true⟩, 1)
    ∧ (⟨List.replicate 10 0, 1, 1, 1⟩ : Arena).wgCount
        = (⟨List.replicate 10 0, 1, 0, 0⟩ : Arena).wgCount + 1
    ∧ (⟨[0], 0, true, false, 0⟩ : Writer).released = false :=
  release_idempotent_once ⟨[5], 0, true, false, 0⟩ ⟨[5], 0, true, false⟩ 3
    (by decide) (by decide) (by decide) (by decide) (by decide)
    ⟨List.replicate 10 0, 1, 0, 0⟩ ⟨List.replicate 10 0, 1, 1, 1⟩ 1
    ⟨[0], 0, true, false, 0⟩ (by decide) (by decide)

/-- Helper: reading repeatedly with a nonempty caller buffer until the
end-of-data signal returns exactly the unread portion of the block,
provided the fuel covers the remaining byte count. -/
theorem readLoop_drains (fuel : Nat) :
    ∀ (r : Reader) (bufLen : Nat), 1 ≤ bufLen →
      r.block.length - r.pos ≤ fuel →
      readLoop fuel r bufLen = r.block.drop r.pos := by
  induction fuel with
  | zero =>
    intro r bufLen hb h
    have hle : r.block.length ≤ r.pos := by omega
    rw [List.drop_eq_nil_of_le hle]
    rfl
  | succ fuel ih =>
    intro r bufLen hb h
    by_cases hend : r.block.length ≤ r.pos
    · rw [List.drop_eq_nil_of_le hend]
      simp [readLoop, Reader.Read, hend]
    · have hlen : ((r.block.drop r.pos).take bufLen).length
          = min bufLen (r.block.length - r.pos) := by
        rw [List.length_take, List.length_drop]
      by_cases heq : r.pos + ((r.block.drop r.pos).take bufLen).length
          = r.block.length
      · have h2 : (r.block.drop r.pos).length ≤ bufLen := by
          rw [List.length_drop]; omega
        simp only [readLoop, Reader.Read, if_neg hend]
        rw [if_pos (by simp only [beq_iff_eq]; exact heq)]
        rw [List.take_of_length_le h2]
      · have hcl : ((r.block.drop r.pos).take bufLen).length = bufLen := by
          rw [List.length_take, List.length_drop]; omega
        have hihp : r.block.length - (r.pos + bufLen) ≤ fuel := by omega
        have ihr := ih ⟨r.block, r.pos + bufLen, r.wg, r.released⟩ bufLen hb hihp
        simp only [readLoop, Reader.Read, if_neg hend]
        rw [if_neg (by simp only [beq_iff_eq]; exact heq)]
        rw [hcl]
        rw [ihr]
        rw [← List.drop_drop, List.take_append_drop]

/-- Counterexample to claim C2 as stated: writing the single byte 7 into a
fresh capacity-2 handle, converting with `to_reader`, and reading until
end-of-data yields the two bytes `[7, 0]` (the written byte followed by
the untouched remainder of the block), not `[7]`. -/
theorem roundtrip_ce :
    roundTrip 2 [7] 1 = some [7, 0] ∧ roundTrip 2 [7] 1 ≠ some [7] := by
  decide

/-- Claim C2 amended: writing `s` (with `s.length ≤ N`) into a fresh
Write-handle of capacity `N` and reading the converted Read-handle until
end-of-data yields the whole `N`-byte block — `s` followed by the
`N - s.length` untouched (zero) bytes — because `to_reader` exposes the
full block from offset 0; the result equals `s` exactly when
`s.length = N`. -/
theorem roundtrip_whole_block (N : Nat) (s : List Nat) (bufLen : Nat)
    (h : s.length ≤ N) (hb : 1 ≤ bufLen) :
    roundTrip N s bufLen = some (s ++ List.replicate (N - s.length) 0) := by
  by_cases hN : N = 0
  · have hs : s = [] := List.length_eq_zero.mp (by omega)
    subst hs
    subst hN
    simp [roundTrip, freshWriter, Writer.Write, Writer.toReader,
      Writer.Release, readLoop, Reader.Read]
  · have hN0 : 0 < N := Nat.pos_of_ne_zero hN
    have hcopy : copyAt (List.replicate N (0 : Nat)) 0 s
        = s ++ List.replicate (N - s.length) 0 := by
      unfold copyAt goCopy
      simp [List.take_of_length_le h, List.drop_replicate]
    have hfw : Writer.Write (freshWriter N) s
        = (⟨s ++ List.replicate (N - s.length) 0, s.length, true, false, 0⟩,
           s.length, false) := by
      rw [write_fits (freshWriter N) s (by simp [freshWriter]; omega)
        (by simp [freshWriter]; omega)]
      simp [freshWriter, hcopy]
    have hBlen : (s ++ List.replicate (N - s.length) (0 : Nat)).length = N := by
      simp
      omega
    unfold roundTrip
    rw [hfw]
    simp only [Writer.toReader]
    rw [if_neg (by simp)]
    simp only []
    rw [readLoop_drains (N + 1) ⟨s ++ List.replicate (N - s.length) 0, 0,
      true, false⟩ bufLen hb (by simp [hBlen])]
    simp

/-- Witness for the amended C2 at a concrete capacity and byte sequence. -/
theorem roundtrip_whole_block_w :
    roundTrip 3 [1, 2] 1 = some ([1, 2] ++ List.replicate 1 0) :=
  roundtrip_whole_block 3 [1, 2] 1 (by decide) (by decide)

/-- Helper: every range of a consecutive tiling starting at `n` starts at
or after `n`. -/
theorem consec_lb (rs : List (Nat × Nat)) :
    ∀ n, ConsecFrom n rs → ∀ r ∈ rs, n ≤ r.1 := by
  induction rs with
  | nil =>
    intro n _ r hr
    cases hr
  | cons head tail ih =>
    intro n hc r hr
    simp only [ConsecFrom] at hc
    obtain ⟨h1, h2, h3⟩ := hc
    cases hr with
    | head => omega
    | tail _ hm =>
      have := ih (n + head.2) h3 r hm
      omega

/-- Helper: a consecutive tiling is pairwise ordered: each earlier range
ends at or before the start of every later one. -/
theorem consec_pairwise (rs : List (Nat × Nat)) :
    ∀ n, ConsecFrom n rs →
      List.Pairwise (fun r1 r2 => r1.1 + r1.2 ≤ r2.1) rs := by
  induction rs with
  | nil =>
    intro n _
    exact List.Pairwise.nil
  | cons head tail ih =>
    intro n hc
    simp only [ConsecFrom] at hc
    obtain ⟨h1, h2, h3⟩ := hc
    refine List.Pairwise.cons ?_ (ih (n + head.2) h3)
    intro r hr
    have := consec_lb tail (n + head.2) h3 r hr
    omega

/-- Helper: a run of requests, all within the reasonable limit, that all
succeed hands out ranges tiling the block consecutively from the starting
cursor, each range ending within the backing block. -/
theorem runGets_consec (sizes : List Int) :
    ∀ (a : Arena) (rs : List (Nat × Nat)) (af : Arena),
      (∀ s ∈ sizes, s ≤ (a.reasonable : Int)) →
      runGets a sizes = some (rs, af) →
      ConsecFrom a.next rs ∧ ∀ r ∈ rs, r.1 + r.2 ≤ a.block.length := by
  induction sizes with
  | nil =>
    intro a rs af _ hrun
    simp only [runGets, Option.some.injEq] at hrun
    obtain ⟨h1, h2⟩ := Prod.mk.injEq .. ▸ hrun
    refine ⟨?_, ?_⟩
    · rw [← h1]
      trivial
    · intro r hr
      rw [← h1] at hr
      cases hr
  | cons s rest ih =>
    intro a rs af hsz hrun
    simp only [runGets] at hrun
    by_cases hs1 : s < 1
    · rw [show Arena.GetWriter a s = (GetRes.invalidSize, a) from by
        unfold Arena.GetWriter; rw [if_pos hs1]] at hrun
      simp at hrun
    · have hs := hsz s (List.mem_cons_self ..)
      by_cases hs3 : a.block.length < a.next + s.toNat
      · rw [getWriter_full a s (by omega) hs hs3] at hrun
        simp at hrun
      · rw [getWriter_ok a s (by omega) hs (by omega)] at hrun
        simp only [] at hrun
        cases hrr : runGets
            { a with next := a.next + s.toNat, wgCount := a.wgCount + 1 }
            rest with
        | none =>
          rw [hrr] at hrun
          simp at hrun
        | some q =>
          rw [hrr] at hrun
          simp only [Option.some.injEq] at hrun
          have h1 : (a.next,
              ((a.block.drop a.next).take s.toNat).length) :: q.1 = rs :=
            congrArg Prod.fst hrun
          have h2 : q.2 = af := congrArg Prod.snd hrun
          have hwlen : ((a.block.drop a.next).take s.toNat).length
              = s.toNat := by
            rw [List.length_take, List.length_drop]; omega
          have ihres := ih
            { a with next := a.next + s.toNat, wgCount := a.wgCount + 1 }
            q.1 q.2 (fun t ht => hsz t (List.mem_cons_of_mem _ ht)) hrr
          subst h1
          refine ⟨?_, ?_⟩
          · simp only [ConsecFrom]
            refine ⟨by trivial, ?_, ?_⟩
            · rw [hwlen]; omega
            · rw [hwlen]
              exact ihres.1
          · intro r hr
            cases hr with
            | head =>
              simp only [hwlen]
              omega
            | tail _ hm =>
              exact ihres.2 r hm

/-- Claim C4: for every sequence of successful arena-backed requests
(each size in `(0, reasonable]`) against one arena generation with no
intervening reset, the byte ranges handed out are pairwise
non-overlapping and each lies within the bounds of the backing block. -/
theorem ranges_disjoint_in_bounds (a : Arena) (sizes : List Int)
    (rs : List (Nat × Nat)) (af : Arena)
    (hsz : ∀ s ∈ sizes, 0 < s ∧ s ≤ (a.reasonable : Int))
    (hrun : runGets a sizes = some (rs, af)) :
    List.Pairwise
      (fun r1 r2 => r1.1 + r1.2 ≤ r2.1 ∨ r2.1 + r2.2 ≤ r1.1) rs
    ∧ ∀ r ∈ rs, r.1 + r.2 ≤ a.block.length := by
  have main := runGets_consec sizes a rs af (fun s hs => (hsz s hs).2) hrun
  exact ⟨(consec_pairwise rs a.next main.1).imp (fun h => Or.inl h),
    main.2⟩

/-- Witness for C4 at a concrete arena and request sequence. -/
theorem ranges_disjoint_in_bounds_w :
    List.Pairwise
      (fun r1 r2 => r1.1 + r1.2 ≤ r2.1 ∨ r2.1 + r2.2 ≤ r1.1)
      [((0 : Nat), (2 : Nat)), (2, 3), (5, 1)]
    ∧ ∀ r ∈ [((0 : Nat), (2 : Nat)), (2, 3), (5, 1)],
        r.1 + r.2 ≤ (⟨List.replicate 30 0, 3, 0, 0⟩ : Arena).block.length :=
  ranges_disjoint_in_bounds ⟨List.replicate 30 0, 3, 0, 0⟩ [2, 3, 1]
    [(0, 2), (2, 3), (5, 1)] ⟨List.replicate 30 0, 3, 6, 3⟩
    (by decide) (by decide)

/-- Claim C3: under the construction invariant `reasonable*10 ≤ size`
(with the current arena and every buffered recycled arena well formed),
the Pool's `getWriter` never surfaces the arena-full error for a positive
requested size: either the current arena serves the request, or the pool
swaps in a replacement arena — recycled from the buffer or built by the
factory — and the single retry against it succeeds, so the caller always
receives a Write-handle. -/
theorem pool_absorbs_arena_full (p : Pool) (size : Int)
    (hwf : PoolWF p) (hpos : 0 < size) :
    ∃ w p', Pool.getWriter p size = some (GetRes.ok w, p') := by
  obtain ⟨hinv, hcur, hbuf⟩ := hwf
  have hcl : p.current.block.length = p.size := hcur.1
  have hcr : p.current.reasonable = p.reasonable := hcur.2
  unfold Pool.getWriter
  by_cases hos : (p.current.reasonable : Int) < size
  · rw [getWriter_oversized p.current size hos]
    simp
  · have hsr : size ≤ (p.current.reasonable : Int) := by omega
    have hsr' : size ≤ (p.reasonable : Int) := by rw [← hcr]; exact hsr
    have hszn : size.toNat ≤ p.reasonable := by omega
    have hsize : size.toNat ≤ p.size := by omega
    by_cases hfull : p.current.block.length < p.current.next + size.toNat
    · rw [getWriter_full p.current size hpos hsr hfull]
      simp only [if_pos (show (GetRes.arenaFull, p.current).1
        = GetRes.arenaFull from rfl)]
      cases hb : p.buffer with
      | nil =>
        have hna : newArena p.size p.reasonable
            = some ⟨List.replicate p.size 0, p.reasonable, 0, 0⟩ := by
          unfold newArena
          rw [if_neg (by omega)]
        have hpg : poolGet p
            = some (⟨List.replicate p.size 0, p.reasonable, 0, 0⟩, []) := by
          unfold poolGet
          rw [hb, hna]
        simp only [hpg]
        rw [getWriter_ok ⟨List.replicate p.size 0, p.reasonable, 0, 0⟩ size
          hpos hsr' (by simp [List.length_replicate]; omega)]
        exact ⟨_, _, rfl⟩
      | cons a0 rest =>
        have hmem : a0 ∈ p.buffer := by
          rw [hb]
          exact List.mem_cons_self ..
        have h0 := hbuf a0 hmem
        have h0l : a0.block.length = p.size := h0.1.1
        have h0r : a0.reasonable = p.reasonable := h0.1.2
        have h0n : a0.next = 0 := h0.2
        have hpg : poolGet p = some (a0, rest) := by
          unfold poolGet
          rw [hb]
        simp only [hpg]
        rw [getWriter_ok a0 size hpos (by rw [h0r]; exact hsr')
          (by rw [h0n, h0l]; omega)]
        exact ⟨_, _, rfl⟩
    · rw [getWriter_ok p.current size hpos hsr (by omega)]
      rw [if_neg (by simp)]
      exact ⟨_, _, rfl⟩

/-- Witness for C3 at a concrete pool whose current arena is exhausted
for the requested size, exercising the swap-and-retry path. -/
theorem pool_absorbs_arena_full_w :
    ∃ w p', Pool.getWriter
        ⟨20, 2, ⟨List.replicate 20 0, 2, 19, 3⟩, [], 1, []⟩ 2
      = some (GetRes.ok w, p') :=
  pool_absorbs_arena_full
    ⟨20, 2, ⟨List.replicate 20 0, 2, 19, 3⟩, [], 1, []⟩ 2
    ⟨by decide, ⟨by decide, by decide⟩, by simp⟩ (by decide)

